import Mathlib

set_option maxHeartbeats 1000000
set_option maxRecDepth 100000

/-!
Shallow embedding of src/adaptive_translation_app.py.

Texts are modelled as lists of characters.  Python str.split() is modelled as
whitespace tokenisation that drops empty tokens.  The model backends (NLI
classifier, sentence-embedding similarity, keyword extraction) are injected as
abstract capability functions that may fail (Except), mirroring which calls of
the source sit inside try/except.  Floating-point scores are modelled as scaled
integers (thousandths), because no claim depends on float arithmetic, only on
threshold comparisons and record plumbing; the stylistic average sentence
length is modelled as an exact rational.
-/

def str (s : String) : List Char := s.data

def isSpaceChar (c : Char) : Bool := c.isWhitespace

/-- Accumulator-based whitespace splitter; `acc` holds the current word
reversed.  Mirrors Python str.split() (drops empty tokens). -/
def splitWordsAux : List Char → List Char → List (List Char)
  | [], acc => if acc = [] then [] else [acc.reverse]
  | c :: cs, acc =>
    if isSpaceChar c then
      if acc = [] then splitWordsAux cs [] else acc.reverse :: splitWordsAux cs []
    else
      splitWordsAux cs (c :: acc)

/-- Python text.split(). -/
def splitWords (s : List Char) : List (List Char) := splitWordsAux s []

/-- Python " ".join(words). -/
def joinWords : List (List Char) → List Char
  | [] => []
  | [w] => w
  | w :: ws => w ++ ' ' :: joinWords ws

/-- truncate_text(text, max_words=500):
words = text.split(); return " ".join(words[:max_words]) if len(words) > max_words else text. -/
def truncate_text (text : List Char) : List Char :=
  let words := splitWords text
  if 500 < words.length then joinWords (words.take 500) else text

/-- re.split applied with the [.!?] pattern: split on each sentence-ending
character, keeping empty pieces (so the result is always non-empty). -/
def splitSentencesAux : List Char → List Char → List (List Char)
  | [], acc => [acc.reverse]
  | c :: cs, acc =>
    if c == '.' || c == '!' || c == '?' then acc.reverse :: splitSentencesAux cs []
    else splitSentencesAux cs (c :: acc)

def splitSentences (s : List Char) : List (List Char) := splitSentencesAux s []

/-- stylistic_score(text): average words per sentence (exact rational) and the
count of the punctuation characters !?,;: . -/
def stylistic_score (text : List Char) : Rat × Nat :=
  let sentences := splitSentences text
  let avg_len : Rat :=
    ((sentences.map (fun s => ((splitWords s).length : Rat))).sum) /
      ((max sentences.length 1 : Nat) : Rat)
  let punctuation_count :=
    (text.filter (fun c => c == '!' || c == '?' || c == ',' || c == ';' || c == ':')).length
  (avg_len, punctuation_count)

/-- The stylistic-mismatch test of evaluate_translation:
abs(src_len - trans_len) > 3 or abs(src_punct - trans_punct) > 2. -/
def stylisticMismatch (source_text translation_text : List Char) : Bool :=
  let s := stylistic_score source_text
  let t := stylistic_score translation_text
  decide (3 < |s.1 - t.1|) || decide (2 < |(s.2 : Int) - (t.2 : Int)|)

def lowerChars (s : List Char) : List Char := s.map Char.toLower

/-- needle is an initial segment of hay. -/
def leadsWith : List Char → List Char → Bool
  | [], _ => true
  | _ :: _, [] => false
  | a :: as, b :: bs => a == b && leadsWith as bs

/-- Python substring containment: needle in hay. -/
def isSubstring (needle : List Char) : List Char → Bool
  | [] => leadsWith needle []
  | c :: t => leadsWith needle (c :: t) || isSubstring needle t

/-- The hard-coded contradiction lexicon phrase_antonyms. -/
def phrase_antonyms : List (List Char × List (List Char)) :=
  [ (str "i love you", [str "i hate you", str "i dislike you"]),
    (str "good morning", [str "bad morning", str "sad morning"]),
    (str "happy birthday", [str "sad birthday", str "unhappy birthday"]) ]

/-- Python dict assignment highlights[opp] = phrase: overwrite the value of an
existing key in place, otherwise append; insertion order is preserved. -/
def dictInsert (k v : List Char) (d : List (List Char × List Char)) :
    List (List Char × List Char) :=
  if d.any (fun q => q.1 == k) then d.map (fun q => if q.1 == k then (q.1, v) else q)
  else d ++ [(k, v)]

/-- highlight_contradictions(source_text, translation_text): for each lexicon
phrase and each of its listed antonyms, record highlights[opp] = phrase when
the phrase occurs in the lowercased source and the antonym occurs in the
lowercased translation. -/
def highlight_contradictions (source_text translation_text : List Char) :
    List (List Char × List Char) :=
  let src_lower := lowerChars source_text
  let trans_lower := lowerChars translation_text
  phrase_antonyms.foldl
    (fun h pa =>
      pa.2.foldl
        (fun h2 opp =>
          if isSubstring pa.1 src_lower && isSubstring opp trans_lower then
            dictInsert opp pa.1 h2
          else h2)
        h)
    []

structure NliOutput where
  label : List Char
  score : Int
deriving DecidableEq

/-- The injected model capabilities (nli_model, sts_model cosine similarity,
kw_model keyword extraction).  Each may fail; failure of a call that the
source wraps in try/except is absorbed, any other failure propagates. -/
structure Backends where
  nli : List Char → Except Unit NliOutput
  sts : List Char → List Char → Except Unit Int
  kw : List Char → Nat → Except Unit (List (List Char × Int))

/-- The results dict built by evaluate_translation.  A Python key that may be
absent is modelled by Option (contradiction_highlights) or by a Bool flag
recording presence of the warning key. -/
structure EvalRecord where
  nli_label : List Char
  nli_score : Int
  contradiction_highlights : Option (List (List Char × List Char))
  warning : Bool
  semantic_similarity : Int
  semantic_warning : Bool
  missing_keywords : List (List Char)
  literary_highlights : List (List Char)
  literary_warning : Bool
  stylistic_warning : Bool
deriving DecidableEq

/-- The f-string f"{source_trunc} </s> {translation_trunc}". -/
def nliInput (a b : List Char) : List Char := a ++ str " </s> " ++ b

/-- evaluate_translation(source_text, translation_text, top_n_keywords=10).
The NLI block sits in try/except: on failure nli_label = "ERROR",
nli_score = 0 and no contradiction_highlights key is written.  The semantic
similarity and the two keyword extractions are not protected, so their
failures escape.  Note which calls receive truncated text and which receive
the full text, exactly as in the source. -/
def evaluate_translation (B : Backends) (source_text translation_text : List Char)
    (top_n_keywords : Nat) : Except Unit EvalRecord :=
  let source_trunc := truncate_text source_text
  let translation_trunc := truncate_text translation_text
  let nliPart :=
    match B.nli (nliInput source_trunc translation_trunc) with
    | .ok out =>
        (out.label, out.score,
          some (highlight_contradictions source_text translation_text),
          out.label == str "CONTRADICTION")
    | .error _ => (str "ERROR", (0 : Int), none, false)
  match B.sts source_text translation_text with
  | .error e => .error e
  | .ok similarity =>
    match B.kw source_text top_n_keywords with
    | .error e => .error e
    | .ok srcPairs =>
      match B.kw translation_text top_n_keywords with
      | .error e => .error e
      | .ok transPairs =>
        let source_keywords := srcPairs.map Prod.fst
        let trans_keywords := transPairs.map Prod.fst
        let missing_keywords :=
          source_keywords.filter (fun k => !(trans_keywords.contains k))
        .ok
          { nli_label := nliPart.1
            nli_score := nliPart.2.1
            contradiction_highlights := nliPart.2.2.1
            warning := nliPart.2.2.2
            semantic_similarity := similarity
            semantic_warning := decide (similarity < 700)
            missing_keywords := missing_keywords
            literary_highlights := missing_keywords
            literary_warning := !missing_keywords.isEmpty
            stylistic_warning := stylisticMismatch source_text translation_text }

/-- award_points(results): +10 per entry of a non-empty contradiction dict,
+5 per literary highlight when the list is non-empty, +2 for a stylistic
warning; the cumulative session score is incremented by the same amount.
Returns (points earned, new cumulative score). -/
def award_points (results : EvalRecord) (session_points : Nat) : Nat × Nat :=
  let points0 : Nat := 0
  let points1 :=
    match results.contradiction_highlights with
    | some d => if d.isEmpty then points0 else points0 + 10 * d.length
    | none => points0
  let points2 :=
    if results.literary_highlights.isEmpty then points1
    else points1 + 5 * results.literary_highlights.length
  let points3 := if results.stylistic_warning then points2 + 2 else points2
  (points3, session_points + points3)

def pmBadge : List Char := str "Poetry Master"

def teBadge : List Char := str "Translation Expert"

structure Session where
  points : Nat
  badges : List (List Char)
deriving DecidableEq

/-- check_badges(): appends "Poetry Master" at cumulative points >= 50 when not
already held, then "Translation Expert" at >= 100 when not already held;
returns the newly earned badges and the updated session. -/
def check_badges (s : Session) : List (List Char) × Session :=
  let step1 : List (List Char) × List (List Char) :=
    if 50 ≤ s.points ∧ pmBadge ∉ s.badges then ([pmBadge], s.badges ++ [pmBadge])
    else ([], s.badges)
  let step2 : List (List Char) × List (List Char) :=
    if 100 ≤ s.points ∧ teBadge ∉ step1.2 then (step1.1 ++ [teBadge], step1.2 ++ [teBadge])
    else step1
  (step2.1, { s with badges := step2.2 })

/-- One evaluated attempt of the UI flow: award_points (which adds the earned
points to the cumulative session score) followed by check_badges. -/
def attemptStep (s : Session) (r : EvalRecord) : Session :=
  let earned := award_points r s.points
  (check_badges { s with points := earned.2 }).2

def initSession : Session := { points := 0, badges := [] }

def runSession (rs : List EvalRecord) : Session := rs.foldl attemptStep initSession

/-- update_leaderboard(student_name, points): when the student already has a
row, set it to max(points, existing first value); otherwise append a new row.
The board is the persisted table, modelled as an association list. -/
def update_leaderboard (student_name : List Char) (points : Nat)
    (board : List (List Char × Nat)) : List (List Char × Nat) :=
  match board.find? (fun q => q.1 == student_name) with
  | some q0 =>
      board.map (fun q => if q.1 == student_name then (q.1, max points q0.2) else q)
  | none => board ++ [(student_name, points)]

/-- Recorded points of a student (0 when absent, like leaderboard.get(n, 0)). -/
def boardPoints (board : List (List Char × Nat)) (name : List Char) : Nat :=
  match board.find? (fun q => q.1 == name) with
  | some q => q.2
  | none => 0

/-- Replay a sequence of (student, points) updates against the initially empty
leaderboard file. -/
def runBoard (us : List (List Char × Nat)) : List (List Char × Nat) :=
  us.foldl (fun b u => update_leaderboard u.1 u.2 b) []

inductive DiffTag where
  | equal
  | replace
  | insertTag
  | deleteTag
deriving DecidableEq

/-- Modelled from the spec: the repository source under src/ contains no Diff
Engine, so DiffOpcode follows the spec's data model: a tagged variant over
Equal/Replace/Insert/Delete carrying a reference-side span and a
candidate-side span. -/
structure DiffOpcode (α : Type) where
  tag : DiffTag
  refSpan : List α
  candSpan : List α
deriving DecidableEq

/-- Length of a longest common subsequence. -/
def lcsLen [DecidableEq α] : List α → List α → Nat
  | [], _ => 0
  | _ :: _, [] => 0
  | a :: r, b :: c =>
    if a = b then lcsLen r c + 1 else max (lcsLen r (b :: c)) (lcsLen (a :: r) c)
termination_by r c => r.length + c.length

/-- Modelled from the spec: LCS-based opcode generation (the Diff Engine is
absent from src/).  Walks both sequences, emitting Equal on a match and
single-token Delete/Insert steps chosen to keep a longest common subsequence,
preferring the reference side (earliest alignment) on ties. -/
def alignRaw [DecidableEq α] : List α → List α → List (DiffOpcode α)
  | [], [] => []
  | [], b :: c => [⟨.insertTag, [], b :: c⟩]
  | a :: r, [] => [⟨.deleteTag, a :: r, []⟩]
  | a :: r, b :: c =>
    if a = b then ⟨.equal, [a], [b]⟩ :: alignRaw r c
    else if lcsLen (a :: r) c ≤ lcsLen r (b :: c) then
      ⟨.deleteTag, [a], []⟩ :: alignRaw r (b :: c)
    else
      ⟨.insertTag, [], [b]⟩ :: alignRaw (a :: r) c
termination_by r c => r.length + c.length

/-- Coalescing of two adjacent opcodes: runs of the same tag merge, and an
adjacent Delete/Insert pair in either order becomes one Replace. -/
def mergeTwo (x y : DiffOpcode α) : Option (DiffOpcode α) :=
  match x.tag, y.tag with
  | .equal, .equal => some ⟨.equal, x.refSpan ++ y.refSpan, x.candSpan ++ y.candSpan⟩
  | .deleteTag, .deleteTag =>
      some ⟨.deleteTag, x.refSpan ++ y.refSpan, x.candSpan ++ y.candSpan⟩
  | .insertTag, .insertTag =>
      some ⟨.insertTag, x.refSpan ++ y.refSpan, x.candSpan ++ y.candSpan⟩
  | .deleteTag, .insertTag =>
      some ⟨.replace, x.refSpan ++ y.refSpan, x.candSpan ++ y.candSpan⟩
  | .insertTag, .deleteTag =>
      some ⟨.replace, x.refSpan ++ y.refSpan, x.candSpan ++ y.candSpan⟩
  | _, _ => none

/-- Coalesce adjacent opcodes into maximal runs. -/
def mergeOps : List (DiffOpcode α) → List (DiffOpcode α)
  | [] => []
  | [x] => [x]
  | x :: y :: rest =>
    match mergeTwo x y with
    | some z => mergeOps (z :: rest)
    | none => x :: mergeOps (y :: rest)
termination_by l => l.length

/-- Modelled from the spec: align(reference, candidate) — LCS-based opcode
generation followed by coalescing into maximal runs. -/
def align [DecidableEq α] (reference candidate : List α) : List (DiffOpcode α) :=
  mergeOps (alignRaw reference candidate)

/-- Concatenation of the reference-side spans in order. -/
def refSpans (ops : List (DiffOpcode α)) : List α := (ops.map DiffOpcode.refSpan).flatten

/-- Concatenation of the candidate-side spans in order. -/
def candSpans (ops : List (DiffOpcode α)) : List α := (ops.map DiffOpcode.candSpan).flatten

/-- Backend set whose semantic-similarity scorer fails (its model raises). -/
def stsFailB : Backends :=
  { nli := fun _ => .ok { label := str "NEUTRAL", score := 500 }
    sts := fun _ _ => .error ()
    kw := fun _ _ => .ok [] }

/-- Backend set whose NLI scorer fails (its model raises). -/
def nliFailB : Backends :=
  { nli := fun _ => .error ()
    sts := fun _ _ => .ok 900
    kw := fun _ _ => .ok [] }

/-- Backend set where every scorer succeeds with neutral values. -/
def trivB : Backends :=
  { nli := fun _ => .ok { label := str "NEUTRAL", score := 500 }
    sts := fun _ _ => .ok 900
    kw := fun _ _ => .ok [] }

/-- Backend set whose semantic-similarity scorer reports the character length
of its first argument, making the text it receives observable. -/
def lenB : Backends :=
  { nli := fun _ => .ok { label := str "NEUTRAL", score := 0 }
    sts := fun a _ => .ok (a.length : Int)
    kw := fun _ _ => .ok [] }

/-- 501 one-letter words: an input longer than the 500-word truncation budget. -/
def manyWords : List Char := joinWords (List.replicate 501 ['a'])

/-- A record in which no deterministic scorer fired. -/
def quietRec : EvalRecord :=
  { nli_label := str "NEUTRAL"
    nli_score := 500
    contradiction_highlights := some []
    warning := false
    semantic_similarity := 900
    semantic_warning := false
    missing_keywords := []
    literary_highlights := []
    literary_warning := false
    stylistic_warning := false }

/-- The record produced by evaluate_translation with trivB on "hi"/"ho". -/
def trivRecHiHo : EvalRecord :=
  { nli_label := str "NEUTRAL"
    nli_score := 500
    contradiction_highlights := some (highlight_contradictions (str "hi") (str "ho"))
    warning := false
    semantic_similarity := 900
    semantic_warning := false
    missing_keywords := []
    literary_highlights := []
    literary_warning := false
    stylistic_warning := stylisticMismatch (str "hi") (str "ho") }

theorem splitWordsAux_sound (cs : List Char) :
    ∀ acc, (∀ c ∈ acc, isSpaceChar c = false) →
      ∀ w ∈ splitWordsAux cs acc, w ≠ [] ∧ ∀ c ∈ w, isSpaceChar c = false := by
  induction cs with
  | nil =>
    intro acc hacc w hw
    simp only [splitWordsAux] at hw
    split at hw
    · simp at hw
    · rename_i hne
      simp only [List.mem_singleton] at hw
      subst hw
      refine ⟨by simpa using hne, ?_⟩
      intro c hc
      exact hacc c (List.mem_reverse.mp hc)
  | cons c cs ih =>
    intro acc hacc w hw
    simp only [splitWordsAux] at hw
    split at hw
    · split at hw
      · exact ih [] (by simp) w hw
      · rename_i hne
        rcases List.mem_cons.mp hw with h | h
        · subst h
          refine ⟨by simpa using hne, ?_⟩
          intro d hd
          exact hacc d (List.mem_reverse.mp hd)
        · exact ih [] (by simp) w h
    · rename_i hcs
      refine ih (c :: acc) ?_ w hw
      intro d hd
      rcases List.mem_cons.mp hd with h | h
      · subst h; simpa using hcs
      · exact hacc d h

theorem splitWords_sound (s : List Char) :
    ∀ w ∈ splitWords s, w ≠ [] ∧ ∀ c ∈ w, isSpaceChar c = false :=
  splitWordsAux_sound s [] (by simp)

theorem splitWordsAux_word (w : List Char) :
    ∀ rest acc, (∀ c ∈ w, isSpaceChar c = false) →
      splitWordsAux (w ++ rest) acc = splitWordsAux rest (w.reverse ++ acc) := by
  induction w with
  | nil => intro rest acc _; simp
  | cons c w ih =>
    intro rest acc hw
    have hc : isSpaceChar c = false := hw c (by simp)
    simp only [List.cons_append, splitWordsAux, hc, Bool.false_eq_true, if_false,
      List.append_eq]
    rw [ih rest (c :: acc) (fun d hd => hw d (List.mem_cons_of_mem _ hd))]
    simp

theorem splitWords_joinWords :
    ∀ ws : List (List Char),
      (∀ w ∈ ws, w ≠ [] ∧ ∀ c ∈ w, isSpaceChar c = false) →
      splitWords (joinWords ws) = ws := by
  intro ws
  induction ws with
  | nil => intro _; rfl
  | cons w ws ih =>
    intro h
    obtain ⟨hw, hwc⟩ := h w (by simp)
    cases ws with
    | nil =>
      show splitWords (joinWords [w]) = [w]
      have hj : joinWords [w] = w := rfl
      rw [hj]
      unfold splitWords
      have h1 : splitWordsAux w [] = splitWordsAux (w ++ []) [] := by simp
      rw [h1, splitWordsAux_word w [] [] hwc]
      simp [splitWordsAux, hw]
    | cons w2 ws2 =>
      have hj : joinWords (w :: w2 :: ws2) = w ++ ' ' :: joinWords (w2 :: ws2) := rfl
      unfold splitWords
      rw [hj, splitWordsAux_word w (' ' :: joinWords (w2 :: ws2)) [] hwc,
        List.append_nil]
      have hstep : splitWordsAux (' ' :: joinWords (w2 :: ws2)) w.reverse =
          w.reverse.reverse :: splitWordsAux (joinWords (w2 :: ws2)) [] := by
        have hne : ¬ w.reverse = [] := by simpa using hw
        have hsp : isSpaceChar ' ' = true := rfl
        simp [splitWordsAux, hne, hsp]
      rw [hstep, List.reverse_reverse]
      exact congrArg (w :: ·) (ih (fun x hx => h x (List.mem_cons_of_mem _ hx)))

theorem truncate_text_of_le (s : List Char) (h : (splitWords s).length ≤ 500) :
    truncate_text s = s := by
  unfold truncate_text
  simp only [if_neg (by omega : ¬ 500 < (splitWords s).length)]

theorem truncate_text_of_gt (s : List Char) (h : 500 < (splitWords s).length) :
    splitWords (truncate_text s) = (splitWords s).take 500 := by
  unfold truncate_text
  simp only [if_pos h]
  refine splitWords_joinWords _ ?_
  intro w hw
  exact splitWords_sound s w (List.take_subset _ _ hw)

/-- C10: truncate_text returns at most 500 words, returns any input of at most
500 words unchanged, and is idempotent. -/
theorem claim_C10_truncate_text (s : List Char) :
    (splitWords (truncate_text s)).length ≤ 500 ∧
    ((splitWords s).length ≤ 500 → truncate_text s = s) ∧
    truncate_text (truncate_text s) = truncate_text s := by
  by_cases h : 500 < (splitWords s).length
  · have hkey := truncate_text_of_gt s h
    have hlen : (splitWords (truncate_text s)).length = 500 := by
      rw [hkey, List.length_take]
      omega
    refine ⟨by omega, fun hle => absurd h (by omega), ?_⟩
    exact truncate_text_of_le _ (by omega)
  · have heq := truncate_text_of_le s (by omega)
    refine ⟨?_, fun _ => heq, ?_⟩
    · rw [heq]; omega
    · rw [heq]; exact heq

/-- Witness for C10: a short input is returned unchanged. -/
theorem claim_C10_witness : truncate_text (str "hi there") = str "hi there" :=
  (claim_C10_truncate_text (str "hi there")).2.1 (by decide)

/-- C3: the point award is exactly 10 per confirmed contradiction-phrase hit
plus 5 per missing literary keyword plus a flat 2 exactly when the stylistic
warning is present; the total is a sum of integer contributions. -/
theorem claim_C3_award_formula (r : EvalRecord) (p : Nat) :
    (award_points r p).1 =
      10 * (r.contradiction_highlights.getD []).length +
      5 * r.literary_highlights.length +
      (if r.stylistic_warning then 2 else 0) := by
  unfold award_points
  cases hr : r.contradiction_highlights with
  | none =>
    simp only [Option.getD_none, List.length_nil]
    split_ifs with h1 h2 <;> simp_all [List.isEmpty_iff]
  | some d =>
    simp only [Option.getD_some]
    split_ifs with h1 h2 h3 <;> simp_all [List.isEmpty_iff]

/-- C9: evaluation and award are deterministic: equal backends, inputs, record
and session score give identical results. -/
theorem claim_C9_deterministic :
    (∀ B₁ B₂ : Backends, ∀ s₁ s₂ t₁ t₂ : List Char, ∀ n₁ n₂ : Nat,
      B₁ = B₂ → s₁ = s₂ → t₁ = t₂ → n₁ = n₂ →
      evaluate_translation B₁ s₁ t₁ n₁ = evaluate_translation B₂ s₂ t₂ n₂) ∧
    (∀ r₁ r₂ : EvalRecord, ∀ p₁ p₂ : Nat, r₁ = r₂ → p₁ = p₂ →
      award_points r₁ p₁ = award_points r₂ p₂) := by
  constructor
  · intro B₁ B₂ s₁ s₂ t₁ t₂ n₁ n₂ hB hs ht hn
    subst hB; subst hs; subst ht; subst hn; rfl
  · intro r₁ r₂ p₁ p₂ hr hp
    subst hr; subst hp; rfl

/-- Witness for C9 at concrete backends, inputs and record. -/
theorem claim_C9_witness :
    evaluate_translation trivB (str "hi") (str "ho") 10 =
      evaluate_translation trivB (str "hi") (str "ho") 10 ∧
    award_points quietRec 0 = award_points quietRec 0 :=
  ⟨claim_C9_deterministic.1 trivB trivB (str "hi") (str "hi") (str "ho") (str "ho")
      10 10 rfl rfl rfl rfl,
    claim_C9_deterministic.2 quietRec quietRec 0 0 rfl rfl⟩

/-- C1 fails as stated: a failure of the semantic-similarity scorer alone
makes evaluate_translation fail outright instead of returning a record with
that scorer marked unavailable. -/
theorem claim_C1_counterexample :
    evaluate_translation stsFailB (str "hi") (str "ho") 10 = Except.error () := rfl

/-- C1 amended: only the NLI block is protected.  When the semantic-similarity
call and the two keyword calls succeed, evaluate_translation returns a record
even if the NLI scorer raised, and an NLI failure is recorded as
nli_label = "ERROR" with score 0 and no contradiction-highlights entry;
failures of the unprotected scorers escape. -/
theorem claim_C1_amended (B : Backends) (s t : List Char) (n : Nat) (v : Int)
    (k₁ k₂ : List (List Char × Int))
    (hsts : B.sts s t = Except.ok v)
    (hk₁ : B.kw s n = Except.ok k₁) (hk₂ : B.kw t n = Except.ok k₂) :
    ∃ rec : EvalRecord, evaluate_translation B s t n = Except.ok rec ∧
      (B.nli (nliInput (truncate_text s) (truncate_text t)) = Except.error () →
        rec.nli_label = str "ERROR" ∧ rec.nli_score = 0 ∧
        rec.contradiction_highlights = none) := by
  unfold evaluate_translation
  simp only [hsts, hk₁, hk₂]
  cases hn : B.nli (nliInput (truncate_text s) (truncate_text t)) with
  | ok out =>
    refine ⟨_, rfl, ?_⟩
    intro hcontra
    cases hcontra
  | error e =>
    exact ⟨_, rfl, fun _ => ⟨rfl, rfl, rfl⟩⟩

/-- Witness for the amended C1: concrete backends whose NLI scorer fails. -/
theorem claim_C1_witness :
    ∃ rec : EvalRecord,
      evaluate_translation nliFailB (str "hi") (str "ho") 10 = Except.ok rec ∧
      (nliFailB.nli (nliInput (truncate_text (str "hi")) (truncate_text (str "ho"))) =
          Except.error () →
        rec.nli_label = str "ERROR" ∧ rec.nli_score = 0 ∧
        rec.contradiction_highlights = none) :=
  claim_C1_amended nliFailB (str "hi") (str "ho") 10 900 [] [] rfl rfl rfl

theorem stylisticMismatch_self (t : List Char) : stylisticMismatch t t = false := by
  simp [stylisticMismatch]

/-- C2 fails as stated: with every backend succeeding vacuously and no scorer
firing, the award is 0 points, not an amount of at least 10; there is no base
constant and no random bonus in award_points. -/
theorem claim_C2_counterexample :
    Except.map (fun r => (award_points r 0).1)
      (evaluate_translation trivB (str "hello") (str "hello") 10) = Except.ok 0 ∧
    ¬ 10 ≤ (0 : Nat) := by
  constructor
  · have hrec : evaluate_translation trivB (str "hello") (str "hello") 10 =
        Except.ok
          { nli_label := str "NEUTRAL", nli_score := 500,
            contradiction_highlights :=
              some (highlight_contradictions (str "hello") (str "hello")),
            warning := false, semantic_similarity := 900, semantic_warning := false,
            missing_keywords := [], literary_highlights := [], literary_warning := false,
            stylistic_warning := stylisticMismatch (str "hello") (str "hello") } := rfl
    have hhc : highlight_contradictions (str "hello") (str "hello") = [] := rfl
    rw [hrec, hhc, stylisticMismatch_self]
    rfl
  · decide

/-- C2 amended: when no deterministic scorer fired (no contradiction
highlights, no missing keywords, no stylistic warning), award_points returns
exactly 0 points and leaves the cumulative score unchanged. -/
theorem claim_C2_amended (r : EvalRecord) (p : Nat)
    (hc : r.contradiction_highlights.getD [] = [])
    (hl : r.literary_highlights = []) (hs : r.stylistic_warning = false) :
    award_points r p = (0, p) := by
  unfold award_points
  cases hr : r.contradiction_highlights with
  | none => simp [hr, hl, hs]
  | some d =>
    rw [hr] at hc
    simp only [Option.getD_some] at hc
    simp [hr, hc, hl, hs]

/-- Witness for the amended C2 at a concrete quiet record. -/
theorem claim_C2_witness : award_points quietRec 0 = (0, 0) :=
  claim_C2_amended quietRec 0 rfl rfl rfl

theorem find?_map_key (f : (List Char × Nat) → (List Char × Nat))
    (hf : ∀ q, (f q).1 = q.1) (b : List (List Char × Nat)) (m : List Char) :
    (b.map f).find? (fun q => q.1 == m) = (b.find? (fun q => q.1 == m)).map f := by
  induction b with
  | nil => rfl
  | cons x bs ih =>
    simp only [List.map_cons, List.find?_cons, hf]
    by_cases hx : (x.1 == m) = true
    · simp [hx]
    · simp [hx, ih]

theorem boardPoints_update_self (b : List (List Char × Nat)) (n : List Char) (p : Nat) :
    boardPoints (update_leaderboard n p b) n = max p (boardPoints b n) := by
  unfold update_leaderboard boardPoints
  cases hf : b.find? (fun q => q.1 == n) with
  | some q0 =>
    rw [find?_map_key _ (fun q => by split <;> rfl) b n, hf]
    have hq0 := List.find?_some hf
    simp only at hq0
    have hq0' : q0.1 = n := by simpa using hq0
    simp [hq0']
  | none =>
    rw [List.find?_append, hf]
    simp

theorem boardPoints_update_mono (b : List (List Char × Nat)) (n m : List Char)
    (p : Nat) : boardPoints b m ≤ boardPoints (update_leaderboard n p b) m := by
  by_cases hmn : m = n
  · subst hmn
    rw [boardPoints_update_self]
    exact Nat.le_max_right _ _
  · unfold update_leaderboard boardPoints
    cases hf : b.find? (fun q => q.1 == n) with
    | some q0 =>
      rw [find?_map_key _ (fun q => by split <;> rfl) b m]
      cases hm : b.find? (fun q => q.1 == m) with
      | none => simp
      | some q1 =>
        have h1 := List.find?_some hm
        simp only at h1
        have h1' : q1.1 = m := by simpa using h1
        simp [h1', hmn]
    | none =>
      rw [List.find?_append]
      cases hm : b.find? (fun q => q.1 == m) with
      | some q1 => simp
      | none => simp

theorem update_keys_nodup (b : List (List Char × Nat)) (n : List Char) (p : Nat)
    (h : (b.map Prod.fst).Nodup) :
    ((update_leaderboard n p b).map Prod.fst).Nodup := by
  unfold update_leaderboard
  cases hf : b.find? (fun q => q.1 == n) with
  | some q0 =>
    have hkeys : (b.map (fun q => if q.1 == n then (q.1, max p q0.2) else q)).map
        Prod.fst = b.map Prod.fst := by
      rw [List.map_map]
      apply List.map_congr_left
      intro q _
      dsimp only [Function.comp]
      split <;> rfl
    rw [hkeys]
    exact h
  | none =>
    rw [List.map_append]
    refine List.Nodup.append h (List.nodup_singleton n) ?_
    intro a ha hb
    simp only [List.map_cons, List.map_nil, List.mem_singleton] at hb
    subst hb
    rw [List.find?_eq_none] at hf
    obtain ⟨q, hq, hq1⟩ := List.mem_map.mp ha
    exact hf q hq (by rw [hq1]; exact beq_self_eq_true a)

theorem runBoard_append_single (us : List (List Char × Nat)) (u : List Char × Nat) :
    runBoard (us ++ [u]) = update_leaderboard u.1 u.2 (runBoard us) := by
  unfold runBoard
  rw [List.foldl_append]
  rfl

theorem runBoard_keys_nodup (us : List (List Char × Nat)) :
    ((runBoard us).map Prod.fst).Nodup := by
  suffices h : ∀ (vs bs : List (List Char × Nat)), (bs.map Prod.fst).Nodup →
      (((vs.foldl (fun b u => update_leaderboard u.1 u.2 b) bs)).map Prod.fst).Nodup by
    exact h us [] (by simp)
  intro vs
  induction vs with
  | nil => intro bs hb; exact hb
  | cons u vs ih =>
    intro bs hb
    exact ih _ (update_keys_nodup bs u.1 u.2 hb)

/-- C4: replaying any sequence of leaderboard updates from the empty board
keeps at most one entry per student; appending one more update for a student
sets that student's recorded points to max(new points, previously recorded
points), and no student's recorded points ever decrease. -/
theorem claim_C4_leaderboard (us : List (List Char × Nat)) (name : List Char)
    (pts : Nat) :
    ((runBoard (us ++ [(name, pts)])).map Prod.fst).Nodup ∧
    boardPoints (runBoard (us ++ [(name, pts)])) name =
      max pts (boardPoints (runBoard us) name) ∧
    ∀ m, boardPoints (runBoard us) m ≤ boardPoints (runBoard (us ++ [(name, pts)])) m := by
  refine ⟨runBoard_keys_nodup _, ?_, ?_⟩
  · rw [runBoard_append_single]
    exact boardPoints_update_self _ _ _
  · intro m
    rw [runBoard_append_single]
    exact boardPoints_update_mono _ _ _ _

theorem award_points_snd (r : EvalRecord) (p : Nat) :
    (award_points r p).2 = p + (award_points r p).1 := rfl

theorem check_badges_mem_pm (s : Session) :
    pmBadge ∈ (check_badges s).2.badges ↔ pmBadge ∈ s.badges ∨ 50 ≤ s.points := by
  have hne : pmBadge ≠ teBadge := by decide
  simp only [check_badges]
  split_ifs with h1 h2 h2 <;>
    simp_all [List.mem_append]

theorem check_badges_count_inv (s : Session)
    (h : s.badges.count pmBadge ≤ 1 ∧ s.badges.count teBadge ≤ 1) :
    (check_badges s).2.badges.count pmBadge ≤ 1 ∧
      (check_badges s).2.badges.count teBadge ≤ 1 := by
  obtain ⟨hp, ht⟩ := h
  have hne : pmBadge ≠ teBadge := by decide
  simp only [check_badges]
  split_ifs with h1 h2 h2 <;> refine ⟨?_, ?_⟩ <;>
    simp_all [List.count_append, List.count_eq_zero, List.count_singleton,
      Ne.symm hne, hne]

theorem attemptStep_count_inv (s : Session) (r : EvalRecord)
    (h : s.badges.count pmBadge ≤ 1 ∧ s.badges.count teBadge ≤ 1) :
    (attemptStep s r).badges.count pmBadge ≤ 1 ∧
      (attemptStep s r).badges.count teBadge ≤ 1 :=
  check_badges_count_inv _ h

theorem runSession_badges_inv (rs : List EvalRecord) :
    (runSession rs).badges.count pmBadge ≤ 1 ∧
      (runSession rs).badges.count teBadge ≤ 1 := by
  suffices h : ∀ (l : List EvalRecord) (s : Session),
      s.badges.count pmBadge ≤ 1 ∧ s.badges.count teBadge ≤ 1 →
      (l.foldl attemptStep s).badges.count pmBadge ≤ 1 ∧
        (l.foldl attemptStep s).badges.count teBadge ≤ 1 by
    exact h rs initSession (by simp [initSession])
  intro l
  induction l with
  | nil => intro s hs; exact hs
  | cons r l ih =>
    intro s hs
    exact ih _ (attemptStep_count_inv s r hs)

/-- C5: across any session, each badge occurs at most once in the badge list,
and "Poetry Master" is present after a further attempt exactly when it was
already present or the cumulative score including the freshly applied award
reaches 50 — the check uses the post-award session-cumulative score, not the
single-attempt points. -/
theorem claim_C5_badges (rs : List EvalRecord) :
    (runSession rs).badges.count pmBadge ≤ 1 ∧
    (runSession rs).badges.count teBadge ≤ 1 ∧
    ∀ r : EvalRecord,
      (pmBadge ∈ (attemptStep (runSession rs) r).badges ↔
        pmBadge ∈ (runSession rs).badges ∨
          50 ≤ (runSession rs).points + (award_points r (runSession rs).points).1) := by
  obtain ⟨h1, h2⟩ := runSession_badges_inv rs
  refine ⟨h1, h2, ?_⟩
  intro r
  unfold attemptStep
  rw [check_badges_mem_pm]
  rw [award_points_snd]

/-- C6 fails as stated: on a 501-word input, the semantic-similarity scorer
receives the full 1001-character text, not its 999-character truncation to
500 words (the keyword and stylistic scorers likewise receive full text; only
the NLI input is truncated). -/
theorem claim_C6_counterexample :
    Except.map (fun r => r.semantic_similarity)
      (evaluate_translation lenB manyWords manyWords 10) =
      Except.ok ((manyWords.length : Int)) ∧
    (manyWords.length : Int) = 1001 ∧
    ((truncate_text manyWords).length : Int) = 999 := by
  refine ⟨?_, by decide, by decide⟩
  have hrec : evaluate_translation lenB manyWords manyWords 10 =
      Except.ok
        { nli_label := str "NEUTRAL", nli_score := 0,
          contradiction_highlights :=
            some (highlight_contradictions manyWords manyWords),
          warning := false,
          semantic_similarity := (manyWords.length : Int),
          semantic_warning := decide ((manyWords.length : Int) < 700),
          missing_keywords := [], literary_highlights := [],
          literary_warning := false,
          stylistic_warning := stylisticMismatch manyWords manyWords } := rfl
  rw [hrec]
  rfl

/-- C6 amended: only the NLI scorer receives truncated input (via the
f-string over the truncated texts); the semantic-similarity scorer, the
keyword extraction and the stylistic check all operate on the full,
untruncated texts.  The source contains no Diff Engine at all. -/
theorem claim_C6_amended (B : Backends) (s t : List Char) (n : Nat)
    (rec : EvalRecord) (h : evaluate_translation B s t n = Except.ok rec) :
    (∀ out, B.nli (nliInput (truncate_text s) (truncate_text t)) = Except.ok out →
      rec.nli_label = out.label) ∧
    (∃ v, B.sts s t = Except.ok v ∧ rec.semantic_similarity = v) ∧
    (∃ ks kt, B.kw s n = Except.ok ks ∧ B.kw t n = Except.ok kt ∧
      rec.missing_keywords =
        (ks.map Prod.fst).filter (fun k => !((kt.map Prod.fst).contains k))) ∧
    rec.stylistic_warning = stylisticMismatch s t := by
  simp only [evaluate_translation] at h
  cases hsts : B.sts s t with
  | error e => simp [hsts] at h
  | ok v =>
    rw [hsts] at h
    cases hk1 : B.kw s n with
    | error e => simp [hk1] at h
    | ok ks =>
      rw [hk1] at h
      cases hk2 : B.kw t n with
      | error e => simp [hk2] at h
      | ok kt =>
        rw [hk2] at h
        injection h with h'
        subst h'
        refine ⟨?_, ⟨v, rfl, rfl⟩, ⟨ks, kt, rfl, rfl, rfl⟩, rfl⟩
        intro out hout
        simp [hout]

/-- Witness for the amended C6 at concrete backends and inputs. -/
theorem claim_C6_witness :
    (∀ out, trivB.nli (nliInput (truncate_text (str "hi")) (truncate_text (str "ho"))) =
        Except.ok out → trivRecHiHo.nli_label = out.label) ∧
    (∃ v, trivB.sts (str "hi") (str "ho") = Except.ok v ∧
      trivRecHiHo.semantic_similarity = v) ∧
    (∃ ks kt, trivB.kw (str "hi") 10 = Except.ok ks ∧
      trivB.kw (str "ho") 10 = Except.ok kt ∧
      trivRecHiHo.missing_keywords =
        (ks.map Prod.fst).filter (fun k => !((kt.map Prod.fst).contains k))) ∧
    trivRecHiHo.stylistic_warning = stylisticMismatch (str "hi") (str "ho") :=
  claim_C6_amended trivB (str "hi") (str "ho") 10 trivRecHiHo rfl

theorem dictInsert_keys_mem (d : List (List Char × List Char)) (k v m : List Char) :
    m ∈ (dictInsert k v d).map Prod.fst ↔ m = k ∨ m ∈ d.map Prod.fst := by
  unfold dictInsert
  by_cases h : d.any (fun q => q.1 == k) = true
  · rw [if_pos h]
    have hkeys : (d.map (fun q => if q.1 == k then (q.1, v) else q)).map Prod.fst =
        d.map Prod.fst := by
      rw [List.map_map]
      apply List.map_congr_left
      intro q _
      dsimp only [Function.comp]
      split <;> rfl
    rw [hkeys]
    have hk : k ∈ d.map Prod.fst := by
      rcases List.any_eq_true.mp h with ⟨q, hq, hq1⟩
      exact List.mem_map.mpr ⟨q, hq, by simpa using hq1⟩
    constructor
    · exact Or.inr
    · rintro (rfl | hm)
      · exact hk
      · exact hm
  · rw [if_neg h, List.map_append]
    simp only [List.mem_append, List.map_cons, List.map_nil, List.mem_singleton]
    tauto

theorem inner_fold_keys (srcL transL phrase : List Char) (opts : List (List Char))
    (h0 : List (List Char × List Char)) (m : List Char) :
    m ∈ (opts.foldl (fun h2 opp =>
        if isSubstring phrase srcL && isSubstring opp transL then
          dictInsert opp phrase h2 else h2) h0).map Prod.fst ↔
      m ∈ h0.map Prod.fst ∨
        (isSubstring phrase srcL = true ∧ m ∈ opts ∧
          isSubstring m transL = true) := by
  induction opts generalizing h0 with
  | nil => simp
  | cons opp opts ih =>
    simp only [List.foldl_cons]
    rw [ih]
    by_cases hc : (isSubstring phrase srcL && isSubstring opp transL) = true
    · rw [if_pos hc]
      rw [dictInsert_keys_mem]
      obtain ⟨h1, h2⟩ := Bool.and_eq_true_iff.mp hc
      constructor
      · rintro ((rfl | hm) | ⟨ha, hb, hc2⟩)
        · exact Or.inr ⟨h1, List.mem_cons_self _ _, h2⟩
        · exact Or.inl hm
        · exact Or.inr ⟨ha, List.mem_cons_of_mem _ hb, hc2⟩
      · rintro (hm | ⟨ha, hb, hc2⟩)
        · exact Or.inl (Or.inr hm)
        · rcases List.mem_cons.mp hb with rfl | hb2
          · exact Or.inl (Or.inl rfl)
          · exact Or.inr ⟨ha, hb2, hc2⟩
    · rw [if_neg hc]
      constructor
      · rintro (hm | ⟨ha, hb, hc2⟩)
        · exact Or.inl hm
        · exact Or.inr ⟨ha, List.mem_cons_of_mem _ hb, hc2⟩
      · rintro (hm | ⟨ha, hb, hc2⟩)
        · exact Or.inl hm
        · rcases List.mem_cons.mp hb with rfl | hb2
          · exact absurd (Bool.and_eq_true_iff.mpr ⟨ha, hc2⟩) hc
          · exact Or.inr ⟨ha, hb2, hc2⟩

theorem outer_fold_keys (srcL transL m : List Char)
    (lex : List (List Char × List (List Char)))
    (h0 : List (List Char × List Char)) :
    m ∈ (lex.foldl (fun h pa => pa.2.foldl (fun h2 opp =>
          if isSubstring pa.1 srcL && isSubstring opp transL then
            dictInsert opp pa.1 h2 else h2) h) h0).map Prod.fst ↔
      m ∈ h0.map Prod.fst ∨
        ∃ pa ∈ lex, isSubstring pa.1 srcL = true ∧ m ∈ pa.2 ∧
          isSubstring m transL = true := by
  induction lex generalizing h0 with
  | nil => simp
  | cons pa lex ih =>
    simp only [List.foldl_cons]
    rw [ih, inner_fold_keys]
    constructor
    · rintro ((hm | hp) | ⟨pb, hpb, h1, h2, h3⟩)
      · exact Or.inl hm
      · exact Or.inr ⟨pa, List.mem_cons_self _ _, hp.1, hp.2.1, hp.2.2⟩
      · exact Or.inr ⟨pb, List.mem_cons_of_mem _ hpb, h1, h2, h3⟩
    · rintro (hm | ⟨pb, hpb, h1, h2, h3⟩)
      · exact Or.inl (Or.inl hm)
      · rcases List.mem_cons.mp hpb with rfl | hpb2
        · exact Or.inl (Or.inr ⟨h1, h2, h3⟩)
        · exact Or.inr ⟨pb, hpb2, h1, h2, h3⟩

theorem evaluate_highlights_eq (B : Backends) (s t : List Char) (n : Nat)
    (rec : EvalRecord) (out : NliOutput)
    (hout : B.nli (nliInput (truncate_text s) (truncate_text t)) = Except.ok out)
    (h : evaluate_translation B s t n = Except.ok rec) :
    rec.contradiction_highlights = some (highlight_contradictions s t) := by
  simp only [evaluate_translation] at h
  cases hsts : B.sts s t with
  | error e => simp [hsts] at h
  | ok v =>
    rw [hsts] at h
    cases hk1 : B.kw s n with
    | error e => simp [hk1] at h
    | ok ks =>
      rw [hk1] at h
      cases hk2 : B.kw t n with
      | error e => simp [hk2] at h
      | ok kt =>
        rw [hk2] at h
        injection h with h'
        subst h'
        simp [hout]

/-- C8: an antonym phrase is flagged exactly when some lexicon phrase occurs
case-insensitively in the source text and that phrase's listed antonym occurs
case-insensitively in the candidate text; the flagged set is independent of
the NLI classification — any two evaluations whose NLI calls succeed carry
the same contradiction-highlights value, namely the pure lookup. -/
theorem claim_C8_contradiction_lookup :
    (∀ source translation opp : List Char,
      opp ∈ (highlight_contradictions source translation).map Prod.fst ↔
        ∃ pa ∈ phrase_antonyms,
          isSubstring pa.1 (lowerChars source) = true ∧ opp ∈ pa.2 ∧
            isSubstring opp (lowerChars translation) = true) ∧
    (∀ (B₁ B₂ : Backends) (s t : List Char) (n₁ n₂ : Nat)
        (r₁ r₂ : EvalRecord) (o₁ o₂ : NliOutput),
      B₁.nli (nliInput (truncate_text s) (truncate_text t)) = Except.ok o₁ →
      B₂.nli (nliInput (truncate_text s) (truncate_text t)) = Except.ok o₂ →
      evaluate_translation B₁ s t n₁ = Except.ok r₁ →
      evaluate_translation B₂ s t n₂ = Except.ok r₂ →
      r₁.contradiction_highlights = r₂.contradiction_highlights ∧
        r₁.contradiction_highlights = some (highlight_contradictions s t)) := by
  constructor
  · intro source translation opp
    simp only [highlight_contradictions]
    rw [outer_fold_keys]
    simp
  · intro B₁ B₂ s t n₁ n₂ r₁ r₂ o₁ o₂ h1 h2 h3 h4
    have e1 := evaluate_highlights_eq B₁ s t n₁ r₁ o₁ h1 h3
    have e2 := evaluate_highlights_eq B₂ s t n₂ r₂ o₂ h2 h4
    exact ⟨e1.trans e2.symm, e1⟩

/-- Witness for C8 at concrete backends, inputs and records. -/
theorem claim_C8_witness :
    trivRecHiHo.contradiction_highlights = trivRecHiHo.contradiction_highlights ∧
    trivRecHiHo.contradiction_highlights =
      some (highlight_contradictions (str "hi") (str "ho")) :=
  claim_C8_contradiction_lookup.2 trivB trivB (str "hi") (str "ho") 10 10
    trivRecHiHo trivRecHiHo ⟨str "NEUTRAL", 500⟩ ⟨str "NEUTRAL", 500⟩
    rfl rfl rfl rfl

theorem refSpans_cons {α : Type} (op : DiffOpcode α) (ops : List (DiffOpcode α)) :
    refSpans (op :: ops) = op.refSpan ++ refSpans ops := rfl

theorem candSpans_cons {α : Type} (op : DiffOpcode α) (ops : List (DiffOpcode α)) :
    candSpans (op :: ops) = op.candSpan ++ candSpans ops := rfl

theorem mergeTwo_spans {α : Type} (x y z : DiffOpcode α) (h : mergeTwo x y = some z) :
    z.refSpan = x.refSpan ++ y.refSpan ∧ z.candSpan = x.candSpan ++ y.candSpan := by
  obtain ⟨xt, xr, xc⟩ := x
  obtain ⟨yt, yr, yc⟩ := y
  cases xt <;> cases yt <;> simp [mergeTwo] at h <;> rw [← h] <;> exact ⟨rfl, rfl⟩

theorem mergeOps_spans {α : Type} (ops : List (DiffOpcode α)) :
    refSpans (mergeOps ops) = refSpans ops ∧
      candSpans (mergeOps ops) = candSpans ops := by
  induction ops using mergeOps.induct with
  | case1 => rw [mergeOps.eq_1]; exact ⟨rfl, rfl⟩
  | case2 x => rw [mergeOps.eq_2]; exact ⟨rfl, rfl⟩
  | case3 x y rest z hmerge ih =>
    have hunf : mergeOps (x :: y :: rest) = mergeOps (z :: rest) := by
      rw [mergeOps.eq_3, hmerge]
    obtain ⟨hr, hc⟩ := ih
    obtain ⟨mr, mc⟩ := mergeTwo_spans x y z hmerge
    constructor
    · rw [hunf, hr, refSpans_cons, mr]
      simp [refSpans_cons, List.append_assoc]
    · rw [hunf, hc, candSpans_cons, mc]
      simp [candSpans_cons, List.append_assoc]
  | case4 x y rest hmerge ih =>
    have hunf : mergeOps (x :: y :: rest) = x :: mergeOps (y :: rest) := by
      rw [mergeOps.eq_3, hmerge]
    obtain ⟨hr, hc⟩ := ih
    constructor
    · rw [hunf, refSpans_cons, hr]
      simp [refSpans_cons]
    · rw [hunf, candSpans_cons, hc]
      simp [candSpans_cons]

theorem alignRaw_spans {α : Type} [DecidableEq α] (r c : List α) :
    refSpans (alignRaw r c) = r ∧ candSpans (alignRaw r c) = c := by
  induction r, c using alignRaw.induct with
  | case1 => rw [alignRaw.eq_1]; exact ⟨rfl, rfl⟩
  | case2 b c => rw [alignRaw.eq_2]; constructor <;> simp [refSpans, candSpans]
  | case3 a r => rw [alignRaw.eq_3]; constructor <;> simp [refSpans, candSpans]
  | case4 r b c ih =>
    have hunf : alignRaw (b :: r) (b :: c) = ⟨.equal, [b], [b]⟩ :: alignRaw r c := by
      rw [alignRaw.eq_4, if_pos rfl]
    obtain ⟨hr, hc⟩ := ih
    constructor
    · rw [hunf, refSpans_cons, hr]; rfl
    · rw [hunf, candSpans_cons, hc]; rfl
  | case5 a r b c hab hle ih =>
    have hunf : alignRaw (a :: r) (b :: c) =
        ⟨.deleteTag, [a], []⟩ :: alignRaw r (b :: c) := by
      rw [alignRaw.eq_4, if_neg hab, if_pos hle]
    obtain ⟨hr, hc⟩ := ih
    constructor
    · rw [hunf, refSpans_cons, hr]; rfl
    · rw [hunf, candSpans_cons, hc]; rfl
  | case6 a r b c hab hle ih =>
    have hunf : alignRaw (a :: r) (b :: c) =
        ⟨.insertTag, [], [b]⟩ :: alignRaw (a :: r) c := by
      rw [alignRaw.eq_4, if_neg hab, if_neg hle]
    obtain ⟨hr, hc⟩ := ih
    constructor
    · rw [hunf, refSpans_cons, hr]; rfl
    · rw [hunf, candSpans_cons, hc]; rfl

/-- C7: the opcode sequence of align, spec-modelled LCS diff (the Diff Engine
is absent from src/), reconstructs the reference from its reference-side spans
and the candidate from its candidate-side spans, concatenated in order. -/
theorem claim_C7_align_reconstruction {α : Type} [DecidableEq α]
    (reference candidate : List α) :
    refSpans (align reference candidate) = reference ∧
    candSpans (align reference candidate) = candidate := by
  unfold align
  obtain ⟨h1, h2⟩ := mergeOps_spans (alignRaw reference candidate)
  obtain ⟨h3, h4⟩ := alignRaw_spans reference candidate
  exact ⟨h1.trans h3, h2.trans h4⟩

/-- Witness for C7 at concrete token sequences. -/
theorem claim_C7_witness :
    refSpans (align [1, 2, 3] [2, 4]) = [1, 2, 3] ∧
    candSpans (align [1, 2, 3] [2, 4]) = ([2, 4] : List Nat) :=
  claim_C7_align_reconstruction [1, 2, 3] [2, 4]
